import Mathlib

/-!
Verification of the JSON→YAML core of `vsc-json-yaml-bridge`.

The repository contains two implementations of the converter:
* `src/src/yamlConverter.ts` — the extension's converter (namespace `YamlConv`
  below): block literals always use the bare `|` marker, the trailing empty
  split element is only popped when the string does NOT end with a newline
  (a dead condition), and the empty string is not special-cased when quoting.
* `src/unnamed/part_000` (a standalone script with the same converter,
  namespace `ScriptConv` below): block literals carry a chomping indicator
  (`+`/`-`/none), control characters inside block lines are replaced by
  spaces, the trailing empty split element is popped unconditionally, and the
  empty string is always quoted.

The line-oriented JSONL driver `convertJsonlToYaml` lives in
`src/src/extension.ts` (namespace `ExtConv`) and uses the extension's
converter.

JavaScript strings are modelled as Lean `String` (a packed `List Char`); the
JS string operations used by the source (`split`, `includes`, `endsWith`,
`startsWith`, `trim`, `repeat`, `join`) are defined below on the character
list and wrapped.  `JSON.parse` is an external collaborator of the core (the
spec delegates parsing to "a standard JSON parser"); it is modelled as an
abstract oracle `JsonOracle` whose `shrinks` field captures the fact that a
value produced by parsing a string is smaller (in the `jweight` measure) than
the string itself — true of any real JSON parser, since every JSON text
denoting a value is at least as long as that value's weight.
-/

/-! ### JavaScript string primitives -/

/-- The JS `\s` / `trim` whitespace set (ASCII part plus the Unicode space
separators, as in ECMA-262). -/
def isJsWs (c : Char) : Bool :=
  c = ' ' || c = '\t' || c = '\n' || c = '\r' ||
  c.val = 0x0b || c.val = 0x0c || c.val = 0xa0 || c.val = 0x1680 ||
  (0x2000 ≤ c.val && c.val ≤ 0x200a) ||
  c.val = 0x2028 || c.val = 0x2029 || c.val = 0x202f || c.val = 0x205f ||
  c.val = 0x3000 || c.val = 0xfeff

/-- `String.prototype.split(sep)` on a character list: always returns at
least one piece; a trailing separator yields a trailing empty piece. -/
def splitCh (sep : Char) : List Char → List (List Char)
  | [] => [[]]
  | c :: t =>
    match splitCh sep t with
    | [] => if c = sep then [[], []] else [[c]]
    | h :: r => if c = sep then [] :: h :: r else (c :: h) :: r

/-- `Array.prototype.join(sep)` restricted to a one-character separator. -/
def joinCh (sep : Char) : List (List Char) → List Char
  | [] => []
  | [x] => x
  | x :: y :: t => x ++ sep :: joinCh sep (y :: t)

/-- `Array.prototype.join(sep)` on strings, arbitrary separator. -/
def joinStr (sep : String) : List String → String
  | [] => ""
  | [x] => x
  | x :: y :: t => x ++ sep ++ joinStr sep (y :: t)

/-- `value.split(sep)` producing strings. -/
def jsSplit (sep : Char) (s : String) : List String :=
  (splitCh sep s.data).map String.mk

/-- `lines.join('\n')`. -/
def joinNL (l : List String) : String := joinStr "\n" l

/-- `value.includes('\n')`. -/
def hasNL (l : List Char) : Bool := l.any (fun c => c = '\n')

/-- `value.includes(': ')` — whether the two-character substring `": "`
occurs. -/
def hasColonSpace : List Char → Bool
  | [] => false
  | [_] => false
  | a :: b :: t => (a = ':' && b = ' ') || hasColonSpace (b :: t)

/-- `value.endsWith('\n')`. -/
def lastNewline (l : List Char) : Bool :=
  l.reverse.head? == some '\n'

/-- `value.endsWith('\n\n')`. -/
def lastTwoNewlines (l : List Char) : Bool :=
  (l.reverse.head? == some '\n') && ((l.reverse.drop 1).head? == some '\n')

/-- Drop leading JS whitespace. -/
def dropWsHead (l : List Char) : List Char := l.dropWhile isJsWs

/-- `String.prototype.trim()` on a character list. -/
def jsTrimList (l : List Char) : List Char :=
  ((dropWsHead l).reverse.dropWhile isJsWs).reverse

/-- `line.trim()`. -/
def jsTrim (s : String) : String := String.mk (jsTrimList s.data)

/-- First line of a rendered value (`value.split('\n')[0]`). -/
def firstLineOf (s : String) : String :=
  String.mk ((splitCh '\n' s.data).headD [])

/-- Wrap a (pre-escaped) body in double quotes. -/
def dquote (s : String) : String := "\"" ++ s ++ "\""

/-! ### The JSON value tree (data model of §3) -/

/-- JavaScript numbers as they matter to the emitter: `NaN`, the two
infinities, and finite decimals `m / 10 ^ e` (the canonical decimal string
form of §3 is `finToString`). -/
inductive JNum where
  | nan : JNum
  | inf : Bool → JNum
  | fin : Int → Nat → JNum
deriving Repr

/-- JSON value tree: `Null | Bool | Number | String | Array | Object` with
object keys in insertion order (§3).  JS `undefined` is folded into `null`,
exactly as the emitter does. -/
inductive Json where
  | null : Json
  | bool : Bool → Json
  | num : JNum → Json
  | str : String → Json
  | arr : List Json → Json
  | obj : List (String × Json) → Json
deriving Repr

/-- `typeof value === 'string'`. -/
def Json.isStr : Json → Bool
  | .str _ => true
  | _ => false

mutual

/-- Weight of a JSON value: any JSON text denoting `v` has at least
`jweight v` characters, so the value returned by parsing a string is always
lighter than the string node that contained the text. -/
def jweight : Json → Nat
  | .null => 1
  | .bool _ => 1
  | .num _ => 1
  | .str s => s.length + 2
  | .arr l => 1 + jweightList l
  | .obj kvs => 1 + jweightObj kvs

/-- Sum of weights of array elements. -/
def jweightList : List Json → Nat
  | [] => 0
  | x :: t => jweight x + jweightList t

/-- Sum of weights of object entry values. -/
def jweightObj : List (String × Json) → Nat
  | [] => 0
  | kv :: t => jweight kv.2 + jweightObj t

end

/-- The external `JSON.parse` collaborator (§6): a parse function together
with the guarantee that a successfully parsed value is lighter than the
string it was parsed from (every JSON text for `v` has length at least
`jweight v`, and a `.str` node weighs its length plus the two quotes). -/
structure JsonOracle where
  parse : String → Except String Json
  shrinks : ∀ s v, parse s = .ok v → jweight v < jweight (Json.str s)

/-- Canonical decimal string of the finite number `m / 10 ^ e`
(JS `Number.prototype.toString` for the decimals used here). -/
def finToString (m : Int) (e : Nat) : String :=
  if e = 0 then toString m
  else
    let ds := toString m.natAbs
    let ds := if ds.length < e + 1 then
        String.mk (List.replicate (e + 1 - ds.length) '0') ++ ds
      else ds
    let k := ds.length - e
    (if m < 0 then "-" else "") ++
      String.mk (ds.data.take k) ++ "." ++ String.mk (ds.data.drop k)

/-! ### Scalar Classifier and String Escaper (§4.1, §4.2) -/

/-- One lowercase hex digit. -/
def hexDigit (n : Nat) : Char :=
  if n < 10 then Char.ofNat (48 + n) else Char.ofNat (87 + n)

/-- JSON string-literal escape of one character, as `JSON.stringify`
produces it: quote, backslash, the five short control escapes, `\u00XX` for
the remaining control characters, everything else literal. -/
def escapeChar (c : Char) : List Char :=
  if c = '"' then ['\\', '"']
  else if c = '\\' then ['\\', '\\']
  else if c.val = 0x08 then ['\\', 'b']
  else if c = '\t' then ['\\', 't']
  else if c = '\n' then ['\\', 'n']
  else if c.val = 0x0c then ['\\', 'f']
  else if c = '\r' then ['\\', 'r']
  else if c.val < 0x20 then
    ['\\', 'u', '0', '0', hexDigit (c.val.toNat / 16), hexDigit (c.val.toNat % 16)]
  else [c]

/-- `escapeString` — `JSON.stringify(str).slice(1, -1)`: the interior of the
JSON double-quoted representation. -/
def escapeString (s : String) : String :=
  String.mk (s.data.flatMap escapeChar)

/-- First character matches `[\s\-:{}[\],&*#?|<>=!%@`]` (the last class
member is the backtick, written by code point). -/
def firstCharSpecial : List Char → Bool
  | [] => false
  | c :: _ =>
    isJsWs c ||
    c ∈ ['-', ':', '{', '}', '[', ']', ',', '&', '*', '#', '?', '|', '<', '>', '=', '!', '%', '@'] ||
    c.val = 0x60

/-- First character matches `[\d\-]`. -/
def firstCharNumStart : List Char → Bool
  | [] => false
  | c :: _ => c.isDigit || c = '-'

/-- The whole string matches `(true|false|null|yes|no|on|off)` after ASCII
lowercasing (the regex's `i` flag). -/
def isYamlWord (s : String) : Bool :=
  let low := String.mk (s.data.map Char.toLower)
  low ∈ ["true", "false", "null", "yes", "no", "on", "off"]

/-- The whole string matches `[\d\.]+`. -/
def allDigitsDots (l : List Char) : Bool :=
  !l.isEmpty && l.all (fun c => c.isDigit || c = '.')

/-- `needsQuotes` (src/src/yamlConverter.ts:17-23 and the identical copy in
the script). -/
def needsQuotes (s : String) : Bool :=
  firstCharSpecial s.data || firstCharNumStart s.data ||
  isYamlWord s || allDigitsDots s.data

/-- Key rendering inside the object branch of `valueToYaml`:
`needsQuotes(key) ? "escaped" : key`. -/
def keyRender (k : String) : String :=
  if needsQuotes k then dquote (escapeString k) else k

/-! ### The extension's converter (`src/src/yamlConverter.ts`) -/

namespace YamlConv

/-- Drop trailing empty strings (the body of the `while … pop()` loop). -/
def dropTrailingEmptyStrings (l : List String) : List String :=
  (l.reverse.dropWhile (fun x => x == "")).reverse

/-- `formatString` (yamlConverter.ts:28-48).  The `while` loop pops trailing
empty elements only while `!endsWithNewline`, so it is modelled by applying
`dropTrailingEmptyStrings` exactly when the string does not end with a
newline. -/
def formatString (value : String) : String :=
  if hasNL value.data || hasColonSpace value.data then
    let lines := jsSplit '\n' value
    let endsWithNewline := lastNewline value.data
    let lines := if endsWithNewline then lines else dropTrailingEmptyStrings lines
    "|\n" ++ joinNL lines
  else
    let escaped := escapeString value
    if needsQuotes value || escaped ≠ value then dquote escaped else value

/-- `formatMultilineYaml` (yamlConverter.ts:57-76): the marker branch fires
only on the exact first line `"|"`. -/
def formatMultilineYaml (yamlValue pfx indentStr : String) : List String :=
  match jsSplit '\n' yamlValue with
  | [] => [indentStr ++ pfx]
  | l0 :: rest =>
    if l0 = "|" then
      (indentStr ++ pfx ++ "|") :: rest.map (fun line => indentStr ++ "  " ++ line)
    else
      (indentStr ++ pfx) :: l0 :: rest

/-- `valueToYaml` (yamlConverter.ts:81-160), fuel-indexed so that the
recursion through the parse oracle is structurally total; `valueToYaml`
below supplies the sufficient fuel `jweight value`, and
`valueToYamlF_fuel_irrelevant` proves that any fuel of at least that weight
computes the same string — i.e. the recursion terminates on every finite
value tree. -/
def valueToYamlF (P : JsonOracle) : Nat → Json → Nat → String
  | 0, _, _ => ""
  | fuel + 1, value, indent =>
    let indentStr := String.mk (List.replicate indent ' ')
    match value with
    | .null => "null"
    | .bool b => if b then "true" else "false"
    | .num .nan => ".nan"
    | .num (.inf pos) => if pos then ".inf" else "-.inf"
    | .num (.fin m e) => finToString m e
    | .str s =>
      match P.parse s with
      | .ok parsed =>
        if parsed.isStr then formatString s
        else valueToYamlF P fuel parsed indent
      | .error _ => formatString s
    | .arr elems =>
      if elems.isEmpty then "[]"
      else
        joinNL (elems.flatMap (fun item =>
          let itemYaml := valueToYamlF P fuel item (indent + 2)
          if hasNL itemYaml.data || itemYaml.data.head? == some ' ' then
            formatMultilineYaml itemYaml "- " indentStr
          else
            [indentStr ++ "- " ++ itemYaml]))
    | .obj entries =>
      if entries.isEmpty then "{}"
      else
        joinNL (entries.flatMap (fun ent =>
          let keyStr := keyRender ent.1
          let valueYaml := valueToYamlF P fuel ent.2 (indent + 2)
          if hasNL valueYaml.data || valueYaml.data.head? == some ' ' then
            formatMultilineYaml valueYaml (keyStr ++ ": ") indentStr
          else
            [indentStr ++ keyStr ++ ": " ++ valueYaml]))

/-- `valueToYaml(value, indent)` — the fuel `jweight value` always
suffices. -/
def valueToYaml (P : JsonOracle) (value : Json) (indent : Nat) : String :=
  valueToYamlF P (jweight value) value indent

/-- `jsonToYaml` (yamlConverter.ts:165-173): parse, render at indent 0, and
turn a parse failure into the thrown `Error`'s message. -/
def jsonToYaml (P : JsonOracle) (jsonString : String) : Except String String :=
  match P.parse jsonString with
  | .ok v => .ok (valueToYaml P v 0)
  | .error e => .error ("Failed to parse JSON: " ++ e)

end YamlConv

/-! ### The script's converter (`src/unnamed/part_000`) -/

namespace ScriptConv

/-- `line.replace(/[\x00-\x08\x0b-\x1f\x7f]/g, ' ')` on one character. -/
def ctrlToSpace (c : Char) : Char :=
  if c.val ≤ 0x08 || (0x0b ≤ c.val && c.val ≤ 0x1f) || c.val = 0x7f then ' ' else c

/-- The per-line control-character cleanup of the script's `formatString`. -/
def cleanLine (s : String) : String := String.mk (s.data.map ctrlToSpace)

/-- `formatString` (part_000:31-71): chomping indicator from the string's
tail, unconditional pop of the trailing empty split element, empty string
always quoted. -/
def formatString (value : String) : String :=
  if hasNL value.data || hasColonSpace value.data then
    let lines := (jsSplit '\n' value).map cleanLine
    let chomp :=
      if lastNewline value.data then
        if lastTwoNewlines value.data then "+" else ""
      else "-"
    let lines := if lines.getLast? == some "" then lines.dropLast else lines
    "|" ++ chomp ++ "\n" ++ joinNL lines
  else
    let escaped := escapeString value
    if value = "" || needsQuotes value || escaped ≠ value then dquote escaped else value

/-- `lines[0].match(/^\|[+\-]?$/)`. -/
def isBlockMarker (s : String) : Bool := s = "|" || s = "|+" || s = "|-"

/-- `formatMultilineYaml` (part_000:80-99): the marker branch also accepts
`|+` and `|-`. -/
def formatMultilineYaml (yamlValue pfx indentStr : String) : List String :=
  match jsSplit '\n' yamlValue with
  | [] => [indentStr ++ pfx]
  | l0 :: rest =>
    if isBlockMarker l0 then
      (indentStr ++ pfx ++ l0) :: rest.map (fun line => indentStr ++ "  " ++ line)
    else
      (indentStr ++ pfx) :: l0 :: rest

/-- `valueToYaml` (part_000:104-183), fuel-indexed exactly like the
extension's version; the two differ only through `formatString` and
`formatMultilineYaml`. -/
def valueToYamlF (P : JsonOracle) : Nat → Json → Nat → String
  | 0, _, _ => ""
  | fuel + 1, value, indent =>
    let indentStr := String.mk (List.replicate indent ' ')
    match value with
    | .null => "null"
    | .bool b => if b then "true" else "false"
    | .num .nan => ".nan"
    | .num (.inf pos) => if pos then ".inf" else "-.inf"
    | .num (.fin m e) => finToString m e
    | .str s =>
      match P.parse s with
      | .ok parsed =>
        if parsed.isStr then formatString s
        else valueToYamlF P fuel parsed indent
      | .error _ => formatString s
    | .arr elems =>
      if elems.isEmpty then "[]"
      else
        joinNL (elems.flatMap (fun item =>
          let itemYaml := valueToYamlF P fuel item (indent + 2)
          if hasNL itemYaml.data || itemYaml.data.head? == some ' ' then
            formatMultilineYaml itemYaml "- " indentStr
          else
            [indentStr ++ "- " ++ itemYaml]))
    | .obj entries =>
      if entries.isEmpty then "{}"
      else
        joinNL (entries.flatMap (fun ent =>
          let keyStr := keyRender ent.1
          let valueYaml := valueToYamlF P fuel ent.2 (indent + 2)
          if hasNL valueYaml.data || valueYaml.data.head? == some ' ' then
            formatMultilineYaml valueYaml (keyStr ++ ": ") indentStr
          else
            [indentStr ++ keyStr ++ ": " ++ valueYaml]))

/-- The script's `valueToYaml(value, indent)`. -/
def valueToYaml (P : JsonOracle) (value : Json) (indent : Nat) : String :=
  valueToYamlF P (jweight value) value indent

end ScriptConv

/-! ### The JSONL record driver (`src/src/extension.ts`) -/

namespace ExtConv

/-- The body of `convertJsonlToYaml`'s `for` loop (extension.ts:13-29):
`i` is the 0-based index of the current line in the original input; a
trimmed-empty line contributes nothing; a parse failure contributes the two
diagnostic strings as two separate array entries (`${error}` stringifies the
thrown `Error` as `"Error: " + message`). -/
def driveLines (P : JsonOracle) : Nat → List String → List String
  | _, [] => []
  | i, rawLine :: rest =>
    let line := jsTrim rawLine
    (if line = "" then []
     else
       match YamlConv.jsonToYaml P line with
       | .ok y => [y]
       | .error msg =>
         ["# Error converting line " ++ toString (i + 1) ++ ": Error: " ++ msg,
          "# Original content: " ++ line]) ++ driveLines P (i + 1) rest

/-- `convertJsonlToYaml` (extension.ts:9-32): split into lines, run the
loop, join every collected entry with a blank line (`join('\n\n')`). -/
def convertJsonlToYaml (P : JsonOracle) (jsonlText : String) : String :=
  joinStr "\n\n" (driveLines P 0 (jsSplit '\n' jsonlText))

end ExtConv

/-! ### Concrete parse oracles -/

/-- A `JSON.parse` oracle for inputs that are not valid JSON: it always
fails (with V8's generic message).  Every string the developments below feed
to it — the plain-text strings of the round-trip corpus, diagnostic test
lines — is indeed invalid JSON, on which the real `JSON.parse` throws. -/
def failOracle : JsonOracle where
  parse := fun _ => .error "SyntaxError: Unexpected token"
  shrinks := fun _ _ h => nomatch h

/-- A tiny concrete `JSON.parse` oracle that recognises exactly the JSON
text `123` (as the number 123) and rejects everything else; used to witness
the string-unwrapping theorem on a string that really is encoded JSON. -/
def oracle123 : JsonOracle where
  parse := fun s => if s = "123" then .ok (.num (.fin 123 0)) else .error "SyntaxError: Unexpected token"
  shrinks := by
    intro s v h
    by_cases hs : s = "123"
    · subst hs
      simp only [if_true, reduceIte, Except.ok.injEq] at h
      subst h
      decide
    · simp [hs] at h

/-! ### A permissive YAML loader (external collaborator, §6/§8)

Modelled from the spec: the repository delegates the reverse direction to
"a standard permissive YAML loader" (`js-yaml`), which is not part of the
repository's sources.  The model below implements the YAML 1.1/1.2 subset
the emitter produces: block mappings and sequences by indentation, block
literal scalars with chomping indicators, double-quoted scalars with JSON
escapes, plain scalars (null, booleans, `.nan`/`.inf`/`-.inf`, decimal
numbers, plain strings) and the flow atoms `[]` / `{}`. -/

/-- Number of leading spaces of a line. -/
def countIndent (s : String) : Nat := (s.data.takeWhile (fun c => c = ' ')).length

/-- A line consisting solely of whitespace (treated by YAML as an empty
line inside block scalars and as insignificant between nodes). -/
def wsOnlyLine (s : String) : Bool := s.data.all isJsWs

/-- Undo one JSON string escape sequence after a backslash. -/
def unescapeJsonChars : List Char → Option (List Char)
  | [] => some []
  | '\\' :: c :: t =>
    match c with
    | '"' => do pure ('"' :: (← unescapeJsonChars t))
    | '\\' => do pure ('\\' :: (← unescapeJsonChars t))
    | '/' => do pure ('/' :: (← unescapeJsonChars t))
    | 'n' => do pure ('\n' :: (← unescapeJsonChars t))
    | 't' => do pure ('\t' :: (← unescapeJsonChars t))
    | 'r' => do pure ('\r' :: (← unescapeJsonChars t))
    | 'b' => do pure (Char.ofNat 0x08 :: (← unescapeJsonChars t))
    | 'f' => do pure (Char.ofNat 0x0c :: (← unescapeJsonChars t))
    | 'u' =>
      match t with
      | h1 :: h2 :: h3 :: h4 :: t' => do
        let hv (h : Char) : Option Nat :=
          if h.isDigit then some (h.val.toNat - 48)
          else if 'a' ≤ h ∧ h ≤ 'f' then some (h.val.toNat - 87)
          else if 'A' ≤ h ∧ h ≤ 'F' then some (h.val.toNat - 55)
          else none
        let n := 4096 * (← hv h1) + 256 * (← hv h2) + 16 * (← hv h3) + (← hv h4)
        pure (Char.ofNat n :: (← unescapeJsonChars t'))
      | _ => none
    | _ => none
  | '\\' :: [] => none
  | c :: t => do pure (c :: (← unescapeJsonChars t))

/-- Scan a double-quoted scalar after its opening quote: return the raw
body and what follows the closing quote. -/
def scanQuoted : List Char → Option (List Char × List Char)
  | [] => none
  | '"' :: t => some ([], t)
  | '\\' :: c :: t => do
    let (body, rest) ← scanQuoted t
    pure ('\\' :: c :: body, rest)
  | '\\' :: [] => none
  | c :: t => do
    let (body, rest) ← scanQuoted t
    pure (c :: body, rest)

/-- Parse the digit run `ds` as a natural number (empty → none). -/
def digitsToNat (ds : List Char) : Option Nat :=
  if ds.isEmpty || !ds.all Char.isDigit then none
  else some (ds.foldl (fun acc c => 10 * acc + (c.val.toNat - 48)) 0)

/-- Parse a YAML/JSON decimal number token into `JNum.fin`. -/
def parseNumTok (l : List Char) : Option JNum := do
  let (neg, l) := match l with
    | '-' :: t => (true, t)
    | _ => (false, l)
  match splitCh '.' l with
  | [ip] => do
    let n ← digitsToNat ip
    pure (.fin (if neg then -(n : Int) else (n : Int)) 0)
  | [ip, fp] => do
    let _ ← digitsToNat ip
    let _ ← digitsToNat fp
    let n ← digitsToNat (ip ++ fp)
    pure (.fin (if neg then -(n : Int) else (n : Int)) fp.length)
  | _ => none

/-- Parse a single-line (flow) scalar token. -/
def parseScalarTok (s : String) : Option Json :=
  if s = "null" then some .null
  else if s = "true" then some (.bool true)
  else if s = "false" then some (.bool false)
  else if s = ".nan" then some (.num .nan)
  else if s = ".inf" then some (.num (.inf true))
  else if s = "-.inf" then some (.num (.inf false))
  else if s = "[]" then some (.arr [])
  else if s = "{}" then some (.obj [])
  else
    match s.data with
    | '"' :: t =>
      match scanQuoted t with
      | some (body, []) => (unescapeJsonChars body).map (fun l => .str (String.mk l))
      | _ => none
    | l =>
      match parseNumTok l with
      | some n => some (.num n)
      | none => some (.str s)

/-- A block-scalar header `|`, `|+` or `|-`, as a chomping mode
(`0` strip, `1` clip, `2` keep). -/
def markerChomp (s : String) : Option Nat :=
  if s = "|-" then some 0 else if s = "|" then some 1 else if s = "|+" then some 2 else none

/-- Drop trailing empty lines. -/
def dropTrailEmpty (l : List String) : List String :=
  (l.reverse.dropWhile (fun x => x == "")).reverse

/-- Assemble the value of a block literal from its dedented content lines
under a chomping mode: strip = no trailing break, clip = exactly one, keep =
all trailing breaks. -/
def chompapply (mode : Nat) (content : List String) : String :=
  if mode = 0 then
    joinNL (dropTrailEmpty content)
  else if mode = 1 then
    match dropTrailEmpty content with
    | [] => ""
    | l => joinNL l ++ "\n"
  else
    match content with
    | [] => ""
    | l => joinNL l ++ "\n"

/-- Auto-detected content indentation of a block scalar: the indentation of
the first non-whitespace-only content line. -/
def detectIndent (l : List String) : Nat :=
  match l.dropWhile wsOnlyLine with
  | [] => 0
  | x :: _ => countIndent x

/-- Remove `m` leading spaces from a content line (a whitespace-only line
shorter than the indentation becomes empty). -/
def dedentLine (m : Nat) (s : String) : String :=
  if countIndent s ≥ m then String.mk (s.data.drop m)
  else ""

/-- Decode a whole block scalar from its header and content lines. -/
def parseBlockScalar (header : String) (content : List String) : Option Json := do
  let mode ← markerChomp header
  let m := detectIndent content
  pure (.str (chompapply mode (content.map (dedentLine m))))

/-- Split a mapping-entry line body into key text and the rest after the
`": "` separator (or after a line-final `:`); quoted keys are unescaped. -/
def splitKeyRest (body : String) : Option (String × String) :=
  match body.data with
  | '"' :: t => do
    let (raw, rest) ← scanQuoted t
    let key := String.mk (← unescapeJsonChars raw)
    match rest with
    | ':' :: ' ' :: r => pure (key, String.mk r)
    | [':'] => pure (key, "")
    | _ => none
  | l => do
    let rec go : List Char → Option (List Char × List Char)
      | [] => none
      | [':'] => some ([], [])
      | ':' :: ' ' :: r => some ([], r)
      | c :: t => do
        let (k, r) ← go t
        pure (c :: k, r)
    let (k, r) ← go l
    pure (String.mk k, String.mk r)

/-- Collect chunks: `cur` is the (reversed) chunk under construction, a new
chunk opens at every line satisfying `pred`. -/
def chunkAux (pred : String → Bool) : List String → List String → List (List String)
  | cur, [] => [cur.reverse]
  | cur, l :: rest =>
    if pred l then cur.reverse :: chunkAux pred [l] rest
    else chunkAux pred (l :: cur) rest

/-- Group the lines of a block collection into chunks, each starting at a
non-whitespace line of exactly the collection's indentation. -/
def chunkLines (ind : Nat) : List String → List (List String)
  | [] => []
  | l :: rest => chunkAux (fun x => countIndent x = ind && !wsOnlyLine x) [l] rest

/-- Parse one YAML node from its lines (the first line carries the node's
indentation); `fuel` bounds the recursion depth and one unit per line always
suffices. -/
def parseYamlNode (P : Nat) : List String → Option Json :=
  match P with
  | 0 => fun _ => none
  | fuel + 1 => fun lines =>
    match lines with
    | [] => none
    | l :: rest =>
      let ind := countIndent l
      let body := String.mk (l.data.drop ind)
      if (markerChomp body).isSome then
        parseBlockScalar body rest
      else if body.data.take 2 = ['-', ' '] || body = "-" then
        let chunks := chunkLines ind (l :: rest)
        (chunks.mapM (fun (ch : List String) =>
          match ch with
          | [] => none
          | cl :: ctail =>
            let r := String.mk ((cl.data.drop ind).drop 2)
            if (markerChomp r).isSome then parseBlockScalar r ctail
            else if r ≠ "" ∧ ¬ wsOnlyLine r then parseScalarTok r
            else parseYamlNode fuel ctail)).map .arr
      else
        match splitKeyRest body with
        | some _ =>
          let chunks := chunkLines ind (l :: rest)
          (chunks.mapM (fun (ch : List String) =>
            match ch with
            | [] => none
            | cl :: ctail => do
              let (k, r) ← splitKeyRest (String.mk (cl.data.drop ind))
              if (markerChomp r).isSome then
                pure (k, (← parseBlockScalar r ctail))
              else if r ≠ "" ∧ ¬ wsOnlyLine r then
                pure (k, (← parseScalarTok r))
              else
                pure (k, (← parseYamlNode fuel ctail)))).map .obj
        | none =>
          match rest with
          | [] => parseScalarTok body
          | _ => none

/-- Lines of a YAML document: a final newline is a line terminator, not an
extra empty line. -/
def docLines (s : String) : List String :=
  let l := jsSplit '\n' s
  if l.getLast? == some "" then l.dropLast else l

/-- Load a YAML document (an empty document loads as `null`, as permissive
loaders produce no value for it). -/
def parseYamlDoc (s : String) : Option Json :=
  match docLines s with
  | [] => some .null
  | lines =>
    if lines.all wsOnlyLine then some .null
    else parseYamlNode (lines.length + 1) lines

/-! ### Claim-side derived definitions -/

/-- The marker line the specification prescribes for a block literal
(§4.3): `|+` when the string ends with two or more newlines, bare `|` when
it ends with exactly one, `|-` when it does not end with a newline. -/
def markerLineSpec (s : String) : String :=
  if lastTwoNewlines s.data then "|+"
  else if lastNewline s.data then "|"
  else "|-"

/-- The representative round-trip corpus of §8: nulls, booleans, integers,
floats, the `NaN`/`Infinity` sentinels, empty and non-empty strings, strings
with newlines and with `": "`, empty and non-empty arrays and objects, and
nested combinations.  None of its strings is parseable JSON. -/
def rtCorpus : List Json :=
  [ .null, .bool true, .bool false,
    .num (.fin 0 0), .num (.fin 30 0), .num (.fin (-5) 0),
    .num (.fin 15 1), .num (.fin (-225) 2), .num (.fin 5 2),
    .num .nan, .num (.inf true), .num (.inf false),
    .str "", .str "hello", .str "New York", .str "hello world",
    .str "a\nb", .str "a\nb\n", .str "key: value",
    .arr [], .obj [],
    .arr [.num (.fin 1 0), .str "two", .bool true],
    .obj [("name", .str "John"), ("age", .num (.fin 30 0)), ("city", .str "New York")],
    .obj [("a", .arr [.num (.fin 1 0), .obj [("b", .str "c: d")]]),
          ("empty", .arr []), ("m", .obj [("x", .str "y\n")])],
    .arr [.arr [.num (.fin 1 0), .num (.fin 2 0)], .arr [], .obj [("k", .bool false)]],
    .obj [("t", .str "a\nb\n\n")] ]

/-! ### Basic facts about the string primitives -/

theorem String.eq_of_data_eq {a b : String} (h : a.data = b.data) : a = b := by
  cases a; cases b; cases h; rfl

theorem data_append (a b : String) : (a ++ b).data = a.data ++ b.data := by
  cases a; cases b; rfl

theorem data_mk (l : List Char) : (String.mk l).data = l := rfl

theorem mk_data (s : String) : String.mk s.data = s := by cases s; rfl

theorem splitCh_ne_nil (sep : Char) (l : List Char) : splitCh sep l ≠ [] := by
  cases l with
  | nil => simp [splitCh]
  | cons c t =>
    simp only [splitCh]
    split <;> split <;> simp

theorem mem_splitCh_not_sep (sep : Char) (l : List Char) :
    ∀ p ∈ splitCh sep l, sep ∉ p := by
  induction l with
  | nil => intro p hp; simp [splitCh] at hp; simp [hp]
  | cons c t ih =>
    intro p hp
    rcases hsplit : splitCh sep t with _ | ⟨x, r⟩
    · exact absurd hsplit (splitCh_ne_nil sep t)
    · simp only [splitCh, hsplit] at hp
      by_cases hc : c = sep
      · rw [if_pos hc] at hp
        rcases List.mem_cons.mp hp with rfl | hp2
        · simp
        · exact ih p (hsplit ▸ hp2)
      · rw [if_neg hc] at hp
        rcases List.mem_cons.mp hp with rfl | hp2
        · intro hmem
          rcases List.mem_cons.mp hmem with rfl | hmem2
          · exact hc rfl
          · exact ih x (hsplit ▸ List.mem_cons_self x r) hmem2
        · exact ih p (hsplit ▸ List.mem_cons.mpr (Or.inr hp2))

theorem splitCh_sepfree {sep : Char} {a : List Char} (ha : sep ∉ a) :
    splitCh sep a = [a] := by
  induction a with
  | nil => rfl
  | cons c t ih =>
    have hc : ¬ c = sep := fun h => ha (h ▸ List.mem_cons_self c t)
    have ht : sep ∉ t := fun h => ha (List.mem_cons.mpr (Or.inr h))
    simp only [splitCh, ih ht, if_neg hc]

theorem splitCh_append_sep {sep : Char} {a : List Char} (ha : sep ∉ a) (b : List Char) :
    splitCh sep (a ++ sep :: b) = a :: splitCh sep b := by
  induction a with
  | nil =>
    rcases h : splitCh sep b with _ | ⟨x, r⟩
    · exact absurd h (splitCh_ne_nil sep b)
    · simp [splitCh, h]
  | cons c t ih =>
    have hc : ¬ c = sep := fun h => ha (h ▸ List.mem_cons_self c t)
    have ht : sep ∉ t := fun h => ha (List.mem_cons.mpr (Or.inr h))
    rw [List.cons_append, splitCh, ih ht]
    simp [hc]

theorem splitCh_append_last (sep : Char) (a : List Char) :
    splitCh sep (a ++ [sep]) = splitCh sep a ++ [[]] := by
  induction a with
  | nil => simp [splitCh]
  | cons c t ih =>
    rcases h : splitCh sep t with _ | ⟨x, r⟩
    · exact absurd h (splitCh_ne_nil sep t)
    · rw [List.cons_append, splitCh, ih, h]
      by_cases hc : c = sep <;> simp [hc, splitCh, h]

theorem splitCh_joinCh {sep : Char} :
    ∀ {L : List (List Char)}, L ≠ [] → (∀ p ∈ L, sep ∉ p) →
      splitCh sep (joinCh sep L) = L
  | [], h, _ => absurd rfl h
  | [x], _, hfree => by
    simp only [joinCh]
    exact splitCh_sepfree (hfree x (List.mem_cons_self x []))
  | x :: y :: t, _, hfree => by
    simp only [joinCh]
    rw [splitCh_append_sep (hfree x (List.mem_cons_self x (y :: t)))]
    congr 1
    exact splitCh_joinCh (by simp) (fun p hp => hfree p (List.mem_cons.mpr (Or.inr hp)))

theorem joinStr_nl_data :
    ∀ L : List String, (joinNL L).data = joinCh '\n' (L.map String.data)
  | [] => rfl
  | [x] => rfl
  | x :: y :: t => by
    simp only [joinNL, joinStr, joinCh, List.map_cons, data_append]
    have := joinStr_nl_data (y :: t)
    simp only [joinNL] at this
    simp [this]

/-- `split('\n')` is a left inverse of `join('\n')` on non-empty lists of
newline-free strings. -/
theorem jsSplit_joinNL {L : List String} (hne : L ≠ [])
    (hfree : ∀ p ∈ L, ('\n' : Char) ∉ p.data) :
    jsSplit '\n' (joinNL L) = L := by
  unfold jsSplit
  rw [joinStr_nl_data,
    splitCh_joinCh (L := L.map String.data) (by simpa using hne)
      (fun p hp => by
        rcases List.mem_map.mp hp with ⟨q, hq, rfl⟩
        exact hfree q hq)]
  simp [List.map_map, Function.comp_def, mk_data]

theorem dropWhileIdem (p : Char → Bool) (l : List Char) :
    (l.dropWhile p).dropWhile p = l.dropWhile p := by
  induction l with
  | nil => rfl
  | cons c t ih =>
    by_cases hc : p c = true
    · simp [List.dropWhile_cons, hc, ih]
    · simp [List.dropWhile_cons, hc]

theorem dropWhileHeadNot {p : Char → Bool} {l : List Char} {x : Char} {xs : List Char}
    (h : l.dropWhile p = x :: xs) : p x = false := by
  induction l with
  | nil => simp at h
  | cons c t ih =>
    by_cases hc : p c = true
    · simp [List.dropWhile_cons, hc] at h
      exact ih h
    · simp [List.dropWhile_cons, hc] at h
      rcases h with ⟨rfl, _⟩
      simpa using hc

/-- The tail-trim is a prefix of its input. -/
theorem revDropRevPrefix (p : Char → Bool) (m : List Char) :
    ((m.reverse.dropWhile p).reverse) <+: m := by
  have hs : (m.reverse.dropWhile p) <:+ m.reverse := List.dropWhile_suffix p
  have : ((m.reverse.dropWhile p).reverse).reverse <:+ m.reverse := by
    simpa using hs
  exact List.reverse_suffix.mp this

theorem jsTrimList_idem (l : List Char) : jsTrimList (jsTrimList l) = jsTrimList l := by
  unfold jsTrimList dropWsHead
  set m := l.dropWhile isJsWs with hm
  have hfront : ((m.reverse.dropWhile isJsWs).reverse).dropWhile isJsWs
      = (m.reverse.dropWhile isJsWs).reverse := by
    rcases hd : (m.reverse.dropWhile isJsWs).reverse with _ | ⟨x, xs⟩
    · rfl
    · have hpre : (x :: xs) <+: m := hd ▸ revDropRevPrefix isJsWs m
      rcases hpre with ⟨t, ht⟩
      have hx : isJsWs x = false := by
        have hlx : List.dropWhile isJsWs l = x :: (xs ++ t) := by
          rw [← hm]
          exact ht.symm
        exact dropWhileHeadNot hlx
      simp [List.dropWhile_cons, hx]
  rw [hfront, List.reverse_reverse, dropWhileIdem]

theorem mem_jsTrimList {c : Char} {l : List Char} (h : c ∈ jsTrimList l) : c ∈ l := by
  unfold jsTrimList dropWsHead at h
  have h1 : c ∈ (l.dropWhile isJsWs).reverse.dropWhile isJsWs := by
    simpa using h
  have h2 : c ∈ (l.dropWhile isJsWs).reverse :=
    (List.dropWhile_suffix _).subset h1
  have h3 : c ∈ l.dropWhile isJsWs := by simpa using h2
  exact (List.dropWhile_suffix _).subset h3

theorem jsTrim_idem (s : String) : jsTrim (jsTrim s) = jsTrim s :=
  String.eq_of_data_eq (by simp [jsTrim, jsTrimList_idem])

theorem one_le_jweight (v : Json) : 1 ≤ jweight v := by
  cases v with
  | null => exact Nat.le_refl 1
  | bool b => exact Nat.le_refl 1
  | num n => exact Nat.le_refl 1
  | str s =>
    show 1 ≤ s.length + 2
    omega
  | arr l =>
    show 1 ≤ 1 + jweightList l
    omega
  | obj l =>
    show 1 ≤ 1 + jweightObj l
    omega

theorem jweight_le_list {x : Json} : ∀ {l : List Json}, x ∈ l → jweight x ≤ jweightList l := by
  intro l hmem
  induction l with
  | nil => simp at hmem
  | cons y t ih =>
    have heq : jweightList (y :: t) = jweight y + jweightList t := rfl
    rcases List.mem_cons.mp hmem with rfl | h2
    · omega
    · have := ih h2
      omega

theorem jweight_le_obj {kv : String × Json} :
    ∀ {l : List (String × Json)}, kv ∈ l → jweight kv.2 ≤ jweightObj l := by
  intro l hmem
  induction l with
  | nil => simp at hmem
  | cons y t ih =>
    have heq : jweightObj (y :: t) = jweight y.2 + jweightObj t := rfl
    rcases List.mem_cons.mp hmem with rfl | h2
    · omega
    · have := ih h2
      omega

theorem flatMapCongr {α β : Type} {l : List α} {F G : α → List β}
    (h : ∀ a ∈ l, F a = G a) : l.flatMap F = l.flatMap G := by
  induction l with
  | nil => rfl
  | cons x t ih =>
    simp only [List.flatMap_cons]
    rw [h x (List.mem_cons_self x t), ih (fun a ha => h a (List.mem_cons.mpr (Or.inr ha)))]

/-- Fuel irrelevance for the extension's emitter: any fuel of at least
`jweight value` computes the same output — the emitter's recursion
(including the string-unwrapping step, bounded by the oracle's `shrinks`
guarantee) always terminates. -/
theorem valueToYamlF_mono (P : JsonOracle) :
    ∀ f g v i, jweight v ≤ f → jweight v ≤ g →
      YamlConv.valueToYamlF P f v i = YamlConv.valueToYamlF P g v i := by
  intro f
  induction f using Nat.strong_induction_on with
  | _ f ih =>
    intro g v i hf hg
    have h1 := one_le_jweight v
    rcases f with _ | f'
    · omega
    rcases g with _ | g'
    · omega
    cases v with
    | null => rfl
    | bool b => rfl
    | num n => cases n <;> rfl
    | str s =>
      simp only [YamlConv.valueToYamlF]
      cases hp : P.parse s with
      | ok parsed =>
        by_cases hstr : parsed.isStr = true
        · simp [hp, hstr]
        · have hw := P.shrinks s parsed hp
          have hws : jweight (Json.str s) = s.length + 2 := rfl
          have hrec : YamlConv.valueToYamlF P f' parsed i
              = YamlConv.valueToYamlF P g' parsed i :=
            ih f' (by omega) g' parsed i (by omega) (by omega)
          simp [hp, hstr, hrec]
      | error e => simp [hp]
    | arr elems =>
      have harr : jweight (Json.arr elems) = 1 + jweightList elems := rfl
      simp only [YamlConv.valueToYamlF]
      by_cases he : elems.isEmpty = true
      · simp [he]
      · simp only [he, Bool.false_eq_true, if_false]
        apply congrArg joinNL
        apply flatMapCongr
        intro item hmem
        have hle : jweight item ≤ jweightList elems := jweight_le_list hmem
        have hrec : YamlConv.valueToYamlF P f' item (i + 2)
            = YamlConv.valueToYamlF P g' item (i + 2) :=
          ih f' (by omega) g' item (i + 2) (by omega) (by omega)
        simp only [hrec]
    | obj entries =>
      have hobj : jweight (Json.obj entries) = 1 + jweightObj entries := rfl
      simp only [YamlConv.valueToYamlF]
      by_cases he : entries.isEmpty = true
      · simp [he]
      · simp only [he, Bool.false_eq_true, if_false]
        apply congrArg joinNL
        apply flatMapCongr
        intro ent hmem
        have hle : jweight ent.2 ≤ jweightObj entries := jweight_le_obj hmem
        have hrec : YamlConv.valueToYamlF P f' ent.2 (i + 2)
            = YamlConv.valueToYamlF P g' ent.2 (i + 2) :=
          ih f' (by omega) g' ent.2 (i + 2) (by omega) (by omega)
        simp only [hrec]

/-! ### Claim C7 — one-level string unwrapping, termination -/

/-- C7: for every string value `s` that the JSON oracle parses to a
non-string value `v`, `valueToYaml(s, i)` equals `valueToYaml(v, i)`; and
the emitter's recursion is stable in its fuel from `jweight` on — the
single level of unwrapping cannot recurse infinitely and the (fuelled)
computation of `valueToYaml` stabilises on every finite JSON value tree. -/
theorem string_unwrap_once (P : JsonOracle) (s : String) (v : Json) (i : Nat)
    (h1 : P.parse s = .ok v) (h2 : v.isStr = false) :
    YamlConv.valueToYaml P (Json.str s) i = YamlConv.valueToYaml P v i ∧
    ∀ f, jweight (Json.str s) ≤ f →
      YamlConv.valueToYamlF P f (Json.str s) i
        = YamlConv.valueToYaml P (Json.str s) i := by
  constructor
  · have hw := P.shrinks s v h1
    have hws : jweight (Json.str s) = s.length + 2 := rfl
    have hstep : YamlConv.valueToYaml P (Json.str s) i
        = YamlConv.valueToYamlF P (s.length + 1) v i := by
      show YamlConv.valueToYamlF P (s.length + 1 + 1) (Json.str s) i = _
      simp only [YamlConv.valueToYamlF, h1, h2, Bool.false_eq_true, if_false]
    rw [hstep]
    exact valueToYamlF_mono P (s.length + 1) (jweight v) v i (by omega) (Nat.le_refl _)
  · intro f hfle
    exact valueToYamlF_mono P f (jweight (Json.str s)) (Json.str s) i hfle (Nat.le_refl _)

/-- Witness for `string_unwrap_once`: the concrete oracle `oracle123`
parses the string `"123"` to the non-string number 123, and both rendering
equations evaluate. -/
theorem string_unwrap_once_w :
    YamlConv.valueToYaml oracle123 (Json.str "123") 0
        = YamlConv.valueToYaml oracle123 (Json.num (JNum.fin 123 0)) 0 ∧
    ∀ f, jweight (Json.str "123") ≤ f →
      YamlConv.valueToYamlF oracle123 f (Json.str "123") 0
        = YamlConv.valueToYaml oracle123 (Json.str "123") 0 :=
  string_unwrap_once oracle123 "123" (Json.num (JNum.fin 123 0)) 0 rfl rfl

/-! ### Claim C2 — the record driver -/

/-- The loop of `convertJsonlToYaml`, characterised declaratively: the
collected entries are exactly the per-line results, in input order, with the
1-based original line number `q.1`; a failed line contributes its two
diagnostic lines as two separate entries. -/
theorem driveLines_enumFrom (P : JsonOracle) :
    ∀ (ls : List String) (i : Nat),
      ExtConv.driveLines P i ls =
        (List.enumFrom (i + 1) ls).flatMap (fun q =>
          let line := jsTrim q.2
          if line = "" then []
          else
            match YamlConv.jsonToYaml P line with
            | .ok y => [y]
            | .error msg =>
              ["# Error converting line " ++ toString q.1 ++ ": Error: " ++ msg,
               "# Original content: " ++ line]) := by
  intro ls
  induction ls with
  | nil => intro i; rfl
  | cons raw rest ih =>
    intro i
    simp only [ExtConv.driveLines, List.enumFrom, List.flatMap_cons, ih (i + 1)]

/-- C2 (amended): the record driver is total and equals the declarative
per-line description — non-blank (after trimming) lines are processed
strictly in input order; a line that parses contributes its rendered YAML as
one block; a line that fails contributes the two diagnostic lines
`"# Error converting line {n}: {error}"` and `"# Original content: {line}"`
as two blocks, with `n` the 1-based line number in the original input; and
all collected blocks are joined with `"\n\n"` — so a blank line also stands
between the two diagnostic lines of one failed record. -/
theorem convertJsonlToYaml_spec (P : JsonOracle) (text : String) :
    ExtConv.convertJsonlToYaml P text =
      joinStr "\n\n" ((List.enumFrom 1 (jsSplit '\n' text)).flatMap (fun q =>
        let line := jsTrim q.2
        if line = "" then []
        else
          match YamlConv.jsonToYaml P line with
          | .ok y => [y]
          | .error msg =>
            ["# Error converting line " ++ toString q.1 ++ ": Error: " ++ msg,
             "# Original content: " ++ line])) := by
  unfold ExtConv.convertJsonlToYaml
  rw [driveLines_enumFrom]

/-- Counterexample to C2 as stated: on the single malformed line `x` the
driver emits the two diagnostic lines separated by a **blank line** (they
are two separate blocks), not as a two-line block. -/
theorem convertJsonlToYaml_diag_blankline :
    ExtConv.convertJsonlToYaml failOracle "x" =
      "# Error converting line 1: Error: Failed to parse JSON: SyntaxError: Unexpected token\n\n# Original content: x"
    ∧ ExtConv.convertJsonlToYaml failOracle "x" ≠
      "# Error converting line 1: Error: Failed to parse JSON: SyntaxError: Unexpected token\n# Original content: x" :=
  ⟨rfl, by decide⟩

/-! ### Claim C10 — trimming comes first -/

/-- C10: every input line is whitespace-trimmed before any other
processing: the driver's output is unchanged when each line of the input is
replaced by its trimmed text.  In particular whitespace-only lines are
skipped exactly like empty lines (their trim is empty, and line numbering is
positional, so it is unaffected), records are parsed from trimmed text, and
diagnostics show the trimmed line. -/
theorem convertJsonlToYaml_trim_first (P : JsonOracle) (text : String) :
    ExtConv.convertJsonlToYaml P text =
      ExtConv.convertJsonlToYaml P (joinNL ((jsSplit '\n' text).map jsTrim)) := by
  unfold ExtConv.convertJsonlToYaml
  have hL : jsSplit '\n' (joinNL ((jsSplit '\n' text).map jsTrim))
      = (jsSplit '\n' text).map jsTrim := by
    apply jsSplit_joinNL
    · intro h
      have h2 : jsSplit '\n' text = [] := by
        cases hsp : jsSplit '\n' text with
        | nil => rfl
        | cons a b => rw [hsp] at h; simp at h
      unfold jsSplit at h2
      refine splitCh_ne_nil '\n' text.data ?_
      cases hc : splitCh '\n' text.data with
      | nil => rfl
      | cons a b => rw [hc] at h2; simp at h2
    · intro p hp
      rcases List.mem_map.mp hp with ⟨q, hq, rfl⟩
      rcases List.mem_map.mp hq with ⟨qc, hqc, rfl⟩
      intro hmem
      have hmem2 : ('\n' : Char) ∈ qc := mem_jsTrimList (by simpa [jsTrim] using hmem)
      exact mem_splitCh_not_sep '\n' text.data qc hqc hmem2
  rw [hL]
  have hdrive : ∀ (ls : List String) (i : Nat),
      ExtConv.driveLines P i (ls.map jsTrim) = ExtConv.driveLines P i ls := by
    intro ls
    induction ls with
    | nil => intro i; rfl
    | cons raw rest ih =>
      intro i
      simp only [List.map_cons, ExtConv.driveLines, jsTrim_idem, ih (i + 1)]
  rw [hdrive]

/-! ### Claim C1 — chomping indicator selection -/

theorem lastTwo_imp_last {l : List Char} (h : lastTwoNewlines l = true) :
    lastNewline l = true := by
  unfold lastTwoNewlines at h
  unfold lastNewline
  simp only [Bool.and_eq_true] at h
  exact h.1

theorem firstLineOf_marker (c : String) (hc : ('\n' : Char) ∉ c.data) (rest : String) :
    firstLineOf ("|" ++ c ++ "\n" ++ rest) = "|" ++ c := by
  unfold firstLineOf
  have hfree : ('\n' : Char) ∉ ('|' :: c.data) := by
    intro hmem
    rcases List.mem_cons.mp hmem with h | h
    · exact absurd h (by decide)
    · exact hc h
  have hdata : ("|" ++ c ++ "\n" ++ rest).data = ('|' :: c.data) ++ '\n' :: rest.data := by
    simp [data_append]
  rw [hdata, splitCh_append_sep hfree]
  apply String.eq_of_data_eq
  simp [data_append]

/-- C1 (amended, script implementation): for every string in the
block-literal branch (it contains a newline or `": "`), the marker line of
the script's `formatString` carries the chomping indicator the spec
prescribes: `|+` when the string ends in two or more newlines, bare `|`
when it ends in exactly one, `|-` when it has no trailing newline. -/
theorem scriptFormatString_chomping (s : String)
    (h : hasNL s.data = true ∨ hasColonSpace s.data = true) :
    firstLineOf (ScriptConv.formatString s) = markerLineSpec s := by
  have hcond : (hasNL s.data || hasColonSpace s.data) = true := by
    rcases h with h | h <;> simp [h]
  unfold ScriptConv.formatString markerLineSpec
  rw [if_pos hcond]
  by_cases h2 : lastTwoNewlines s.data = true
  · have h1 : lastNewline s.data = true := lastTwo_imp_last h2
    simp only [h1, h2, if_true]
    rw [firstLineOf_marker "+" (by decide)]
    rfl
  · by_cases h1 : lastNewline s.data = true
    · simp only [h1, h2, if_true, Bool.false_eq_true, if_false]
      rw [firstLineOf_marker "" (by decide)]
      rfl
    · simp only [h1, h2, Bool.false_eq_true, if_false]
      rw [firstLineOf_marker "-" (by decide)]
      rfl

/-- Witness for `scriptFormatString_chomping` at the three concrete inputs
`"a\nb\n\n"`, `"a\nb\n"` and `"key: value"` of the spec's chomping table. -/
theorem scriptFormatString_chomping_w :
    firstLineOf (ScriptConv.formatString "a\nb\n\n") = markerLineSpec "a\nb\n\n" ∧
    firstLineOf (ScriptConv.formatString "a\nb\n") = markerLineSpec "a\nb\n" ∧
    firstLineOf (ScriptConv.formatString "key: value") = markerLineSpec "key: value" :=
  ⟨scriptFormatString_chomping "a\nb\n\n" (Or.inl (by decide)),
   scriptFormatString_chomping "a\nb\n" (Or.inl (by decide)),
   scriptFormatString_chomping "key: value" (Or.inr (by decide))⟩

/-- Counterexample to C1 as stated: the extension's `formatString`
(src/src/yamlConverter.ts) never emits a chomping indicator — on
`"key: value"` (no trailing newline) its marker line is `|`, not the `|-`
the claim requires. -/
theorem extFormatString_no_chomping :
    YamlConv.formatString "key: value" = "|\nkey: value" ∧
    firstLineOf (YamlConv.formatString "key: value") = "|" ∧
    firstLineOf (YamlConv.formatString "key: value") ≠ markerLineSpec "key: value" :=
  ⟨rfl, rfl, by decide⟩

/-! ### Claim C5 — the trailing empty split element -/

theorem nl_notMem_cleanLine {q : String} (hq : ('\n' : Char) ∉ q.data) :
    ('\n' : Char) ∉ (ScriptConv.cleanLine q).data := by
  intro hmem
  have hmem2 : ('\n' : Char) ∈ q.data.map ScriptConv.ctrlToSpace := hmem
  rcases List.mem_map.mp hmem2 with ⟨c, hc, hceq⟩
  have hcnl : c = '\n' := by
    unfold ScriptConv.ctrlToSpace at hceq
    split at hceq
    · exact absurd hceq (by decide)
    · exact hceq
  exact hq (hcnl ▸ hc)

theorem lastNewline_hasNL {l : List Char} (h : lastNewline l = true) : hasNL l = true := by
  unfold lastNewline at h
  unfold hasNL
  rcases hrev : l.reverse with _ | ⟨a, u⟩
  · rw [hrev] at h; simp at h
  · rw [hrev] at h
    simp only [List.head?_cons, beq_iff_eq, Option.some.injEq] at h
    have hmem : a ∈ l := by
      have h3 : a ∈ l.reverse := hrev ▸ List.mem_cons_self a u
      simpa using h3
    simp only [List.any_eq_true]
    exact ⟨a, hmem, by simp [h]⟩

theorem jsSplit_marker (c : String) (hc : ('\n' : Char) ∉ c.data) (L : List String)
    (hne : L ≠ []) (hfree : ∀ p ∈ L, ('\n' : Char) ∉ p.data) :
    jsSplit '\n' ("|" ++ c ++ "\n" ++ joinNL L) = ("|" ++ c) :: L := by
  unfold jsSplit
  have hfree2 : ('\n' : Char) ∉ ('|' :: c.data) := by
    intro hmem
    rcases List.mem_cons.mp hmem with h | h
    · exact absurd h (by decide)
    · exact hc h
  have hdata : ("|" ++ c ++ "\n" ++ joinNL L).data
      = ('|' :: c.data) ++ '\n' :: (joinNL L).data := by simp [data_append]
  rw [hdata, splitCh_append_sep hfree2, joinStr_nl_data,
    splitCh_joinCh (L := L.map String.data) (by simpa using hne)
      (fun p hp => by
        rcases List.mem_map.mp hp with ⟨q, hq, rfl⟩
        exact hfree q hq)]
  have hmk : String.mk ('|' :: c.data) = "|" ++ c := by
    apply String.eq_of_data_eq
    simp [data_append]
  simp [List.map_map, Function.comp_def, mk_data, hmk]

/-- C5 (amended, script implementation): when the string ends with a
newline, splitting it on `'\n'` produces an empty final element, and the
script's `formatString` drops exactly that element before joining the block
content: the emitted lines are the marker line followed by `dropLast` of the
(control-cleaned) split. -/
theorem scriptFormatString_drops_artifact (s : String) (h : lastNewline s.data = true) :
    (jsSplit '\n' s).getLast? = some "" ∧
    jsSplit '\n' (ScriptConv.formatString s)
      = markerLineSpec s :: ((jsSplit '\n' s).map ScriptConv.cleanLine).dropLast := by
  obtain ⟨t, ht⟩ : ∃ t, s.data = t ++ ['\n'] := by
    unfold lastNewline at h
    rcases hrev : s.data.reverse with _ | ⟨a, u⟩
    · rw [hrev] at h; simp at h
    · rw [hrev] at h
      simp only [List.head?_cons, beq_iff_eq, Option.some.injEq] at h
      refine ⟨u.reverse, ?_⟩
      have h2 := congrArg List.reverse hrev
      simp only [List.reverse_reverse, List.reverse_cons] at h2
      rw [h2, h]
  have hsplitdata : splitCh '\n' s.data = splitCh '\n' t ++ [[]] := by
    rw [ht, splitCh_append_last]
  have hsplit : jsSplit '\n' s = (splitCh '\n' t).map String.mk ++ [""] := by
    unfold jsSplit
    rw [hsplitdata, List.map_append]
    rfl
  have hlines : (jsSplit '\n' s).map ScriptConv.cleanLine
      = ((splitCh '\n' t).map String.mk).map ScriptConv.cleanLine ++ [""] := by
    rw [hsplit, List.map_append]
    rfl
  have hBne : ((splitCh '\n' t).map String.mk).map ScriptConv.cleanLine ≠ [] := by
    intro hB
    rcases hsp : splitCh '\n' t with _ | ⟨x, r⟩
    · exact splitCh_ne_nil '\n' t hsp
    · rw [hsp] at hB
      simp at hB
  have hBfree : ∀ p ∈ ((splitCh '\n' t).map String.mk).map ScriptConv.cleanLine,
      ('\n' : Char) ∉ p.data := by
    intro p hp
    rcases List.mem_map.mp hp with ⟨q, hq, rfl⟩
    rcases List.mem_map.mp hq with ⟨qc, hqc, rfl⟩
    exact nl_notMem_cleanLine (mem_splitCh_not_sep '\n' t qc hqc)
  constructor
  · rw [hsplit]
    simp
  · have hNL : hasNL s.data = true := lastNewline_hasNL h
    unfold ScriptConv.formatString
    rw [if_pos (by simp [hNL])]
    simp only [hlines]
    have hcondpop : ((((splitCh '\n' t).map String.mk).map ScriptConv.cleanLine ++ [""]).getLast?
        == some "") = true := by simp
    simp only [hcondpop, if_true]
    have hdrop : (((splitCh '\n' t).map String.mk).map ScriptConv.cleanLine ++ [""]).dropLast
        = ((splitCh '\n' t).map String.mk).map ScriptConv.cleanLine := by simp
    simp only [hdrop]
    by_cases h2 : lastTwoNewlines s.data = true
    · simp only [markerLineSpec, h, h2, if_true]
      rw [jsSplit_marker "+" (by decide) _ hBne hBfree]
      rfl
    · simp only [markerLineSpec, h, h2, if_true, Bool.false_eq_true, if_false]
      rw [jsSplit_marker "" (by decide) _ hBne hBfree]
      rfl

/-- Witness for `scriptFormatString_drops_artifact` at `"a\n"`. -/
theorem scriptFormatString_drops_artifact_w :
    (jsSplit '\n' "a\n").getLast? = some "" ∧
    jsSplit '\n' (ScriptConv.formatString "a\n")
      = markerLineSpec "a\n" :: ((jsSplit '\n' "a\n").map ScriptConv.cleanLine).dropLast :=
  scriptFormatString_drops_artifact "a\n" (by decide)

/-- Counterexample to C5 as stated: the extension's `formatString` keeps
the artifact empty element — on `"a\n"` it emits `"|\na\n"`, whose last
block line is the empty artifact line; a formatter that dropped the
artifact would emit `"|\na"`. -/
theorem extFormatString_keeps_artifact :
    YamlConv.formatString "a\n" = "|\na\n" ∧
    (jsSplit '\n' (YamlConv.formatString "a\n")).getLast? = some "" ∧
    YamlConv.formatString "a\n" ≠ "|\na" :=
  ⟨rfl, rfl, by decide⟩

/-! ### Claim C3 — the empty string -/

/-- C3 (amended, script implementation): the script's `formatString` always
renders the empty string as the double-quoted empty scalar. -/
theorem scriptFormatString_empty : ScriptConv.formatString "" = "\"\"" := rfl

/-- Counterexample to C3 as stated: the extension's `formatString` has no
empty-string rule — it renders `""` as a bare empty plain scalar, not as a
double-quoted empty scalar; the same happens through `valueToYaml`. -/
theorem extFormatString_empty :
    YamlConv.formatString "" = "" ∧
    YamlConv.valueToYaml failOracle (Json.str "") 0 = "" ∧
    YamlConv.formatString "" ≠ "\"\"" :=
  ⟨rfl, rfl, by decide⟩

/-! ### Claim C4 — indentation reflow -/

/-- C4 (amended, script implementation): `formatMultilineYaml` emits
`indentStr ++ prefix ++ marker` followed by the remaining lines indented two
further spaces whenever the first line of the rendered value is exactly one
of the markers `|`, `|+`, `|-`; otherwise it emits `indentStr ++ prefix`
alone and then every line of the rendered value verbatim. -/
theorem scriptFormatMultiline_spec (y pfx ind : String) :
    ScriptConv.formatMultilineYaml y pfx ind =
      if ScriptConv.isBlockMarker (firstLineOf y) then
        (ind ++ pfx ++ firstLineOf y)
          :: (jsSplit '\n' y).tail.map (fun line => ind ++ "  " ++ line)
      else (ind ++ pfx) :: jsSplit '\n' y := by
  have hne := splitCh_ne_nil '\n' y.data
  unfold ScriptConv.formatMultilineYaml
  rcases hsp : jsSplit '\n' y with _ | ⟨l0, rest⟩
  · exfalso
    unfold jsSplit at hsp
    rcases hsc : splitCh '\n' y.data with _ | ⟨x, r⟩
    · exact hne hsc
    · rw [hsc] at hsp
      simp at hsp
  · have hfl : firstLineOf y = l0 := by
      unfold firstLineOf
      unfold jsSplit at hsp
      rcases hsc : splitCh '\n' y.data with _ | ⟨x, r⟩
      · exact absurd hsc hne
      · rw [hsc] at hsp
        simp only [List.map_cons, List.cons.injEq] at hsp
        simpa using hsp.1
    rw [hfl]
    by_cases hb : ScriptConv.isBlockMarker l0 = true <;> simp [hb]

/-- Counterexample to C4 as stated: the extension's `formatMultilineYaml`
recognises only the bare `|` marker — a rendered value whose first line is
`|-` falls into the verbatim branch, so the marker is not attached to the
prefix line. -/
theorem extFormatMultiline_marker_miss :
    YamlConv.formatMultilineYaml "|-\na" "- " "" = ["- ", "|-", "a"] ∧
    YamlConv.formatMultilineYaml "|-\na" "- " "" ≠ ["- |-", "  a"] :=
  ⟨rfl, by decide⟩

/-! ### Claim C6 — quoting of keys versus scalar values -/

theorem one_le_escapeChar_length (c : Char) : 1 ≤ (escapeChar c).length := by
  unfold escapeChar
  split_ifs <;> simp

theorem le_flatMap_escape (l : List Char) : l.length ≤ (l.flatMap escapeChar).length := by
  induction l with
  | nil => simp
  | cons c t ih =>
    have h1 := one_le_escapeChar_length c
    simp only [List.flatMap_cons, List.length_append, List.length_cons]
    omega

theorem ne_dquote_escape (s : String) : s ≠ dquote (escapeString s) := by
  intro heq
  have hlen := congrArg String.length heq
  have h2 : (dquote (escapeString s)).length = (escapeString s).length + 2 := by
    have hd : (dquote (escapeString s)).data = ('"' :: (escapeString s).data) ++ ['"'] := by
      simp [dquote, data_append]
    show (dquote (escapeString s)).data.length = (escapeString s).data.length + 2
    rw [hd]
    simp [List.length_append]
  have h3 : s.length ≤ (escapeString s).length := le_flatMap_escape s.data
  omega

/-- C6 (amended): under the single-line branch (no newline, no `": "`), a
key is double-quoted exactly when `needsQuotes` holds, while a scalar string
value is double-quoted exactly when `needsQuotes` holds **or escaping
changes the string** (extension) — or additionally when the string is empty
(script).  The two decisions therefore coincide precisely on the strings
that escaping leaves unchanged (and, for the script, that are non-empty). -/
theorem quoting_keys_vs_values (s : String)
    (h : hasNL s.data = false ∧ hasColonSpace s.data = false) :
    (keyRender s = dquote (escapeString s) ↔ needsQuotes s = true) ∧
    (YamlConv.formatString s = dquote (escapeString s)
        ↔ (needsQuotes s = true ∨ escapeString s ≠ s)) ∧
    (ScriptConv.formatString s = dquote (escapeString s)
        ↔ (s = "" ∨ needsQuotes s = true ∨ escapeString s ≠ s)) ∧
    (escapeString s = s → s ≠ "" →
      ((keyRender s = dquote (escapeString s))
          ↔ (YamlConv.formatString s = dquote (escapeString s))) ∧
      ((keyRender s = dquote (escapeString s))
          ↔ (ScriptConv.formatString s = dquote (escapeString s)))) := by
  obtain ⟨hn, hcs⟩ := h
  have hnotblock : ¬ ((hasNL s.data || hasColonSpace s.data) = true) := by
    simp [hn, hcs]
  have hne := ne_dquote_escape s
  have h1 : keyRender s = dquote (escapeString s) ↔ needsQuotes s = true := by
    unfold keyRender
    by_cases hq : needsQuotes s = true <;> simp [hq, hne]
  have h2 : YamlConv.formatString s = dquote (escapeString s)
      ↔ (needsQuotes s = true ∨ escapeString s ≠ s) := by
    unfold YamlConv.formatString
    rw [if_neg hnotblock]
    by_cases hq : needsQuotes s = true
    · simp [hq]
    · by_cases heq : escapeString s = s
      · have hne2 : s ≠ dquote s := by
          rw [heq] at hne
          exact hne
        simp [hq, heq, hne2]
      · simp [hq, heq]
  have h3 : ScriptConv.formatString s = dquote (escapeString s)
      ↔ (s = "" ∨ needsQuotes s = true ∨ escapeString s ≠ s) := by
    unfold ScriptConv.formatString
    rw [if_neg hnotblock]
    by_cases hs0 : s = ""
    · simp [hs0]
    · by_cases hq : needsQuotes s = true
      · simp [hs0, hq]
      · by_cases heq : escapeString s = s
        · have hne2 : s ≠ dquote s := by
            rw [heq] at hne
            exact hne
          simp [hs0, hq, heq, hne2]
        · simp [hs0, hq, heq]
  refine ⟨h1, h2, h3, fun hesq hs0 => ⟨?_, ?_⟩⟩
  · rw [h1, h2]
    simp [hesq]
  · rw [h1, h3]
    simp [hesq, hs0]

/-- Witness for `quoting_keys_vs_values` at the plain string `"hello"`. -/
theorem quoting_keys_vs_values_w :
    (keyRender "hello" = dquote (escapeString "hello") ↔ needsQuotes "hello" = true) ∧
    (YamlConv.formatString "hello" = dquote (escapeString "hello")
        ↔ (needsQuotes "hello" = true ∨ escapeString "hello" ≠ "hello")) ∧
    (ScriptConv.formatString "hello" = dquote (escapeString "hello")
        ↔ ("hello" = "" ∨ needsQuotes "hello" = true ∨ escapeString "hello" ≠ "hello")) ∧
    (escapeString "hello" = "hello" → "hello" ≠ "" →
      ((keyRender "hello" = dquote (escapeString "hello"))
          ↔ (YamlConv.formatString "hello" = dquote (escapeString "hello"))) ∧
      ((keyRender "hello" = dquote (escapeString "hello"))
          ↔ (ScriptConv.formatString "hello" = dquote (escapeString "hello")))) :=
  quoting_keys_vs_values "hello" ⟨by decide, by decide⟩

/-- Counterexample to C6 as stated: on `a"b` (a string that escaping
changes) the scalar value is double-quoted but the key is emitted bare, so
the quoting decisions differ. -/
theorem quoting_keys_vs_values_diverge :
    needsQuotes "a\"b" = false ∧
    YamlConv.formatString "a\"b" = dquote (escapeString "a\"b") ∧
    keyRender "a\"b" = "a\"b" ∧
    YamlConv.valueToYaml failOracle (Json.obj [("a\"b", Json.null)]) 0 = "a\"b: null" ∧
    YamlConv.valueToYaml failOracle (Json.str "a\"b") 0 = "\"a\\\"b\"" ∧
    keyRender "a\"b" ≠ dquote (escapeString "a\"b") :=
  ⟨rfl, rfl, rfl, rfl, rfl, by decide⟩

/-! ### Claim C8 — the scalar classifier -/

/-- C8: `needsQuotes(s)` is true exactly when the first character is
whitespace or one of the special characters `- : { } [ ] , & * # ? | < > =
! % @` or the backtick (code point 0x60), or the first character is a digit
or `-`, or the whole string case-insensitively equals one of
`true false null yes no on off`, or the (non-empty) string consists solely
of digits and dots; in particular `needsQuotes "true"`, `needsQuotes "123"`
and `needsQuotes "-5"` are true and `needsQuotes "hello"` is false. -/
theorem needsQuotes_spec :
    (∀ s : String, needsQuotes s = true ↔
      ((∃ c, s.data.head? = some c ∧
          (isJsWs c = true ∨
           c ∈ ['-', ':', '{', '}', '[', ']', ',', '&', '*', '#', '?', '|',
                '<', '>', '=', '!', '%', '@'] ∨
           c.val = 0x60)) ∨
       (∃ c, s.data.head? = some c ∧ (c.isDigit = true ∨ c = '-')) ∨
       String.mk (s.data.map Char.toLower) ∈
         (["true", "false", "null", "yes", "no", "on", "off"] : List String) ∨
       (s.data ≠ [] ∧ ∀ c ∈ s.data, c.isDigit = true ∨ c = '.'))) ∧
    needsQuotes "true" = true ∧ needsQuotes "123" = true ∧
    needsQuotes "-5" = true ∧ needsQuotes "hello" = false := by
  refine ⟨?_, rfl, rfl, rfl, rfl⟩
  intro s
  unfold needsQuotes firstCharSpecial firstCharNumStart isYamlWord allDigitsDots
  rcases hd : s.data with _ | ⟨c, t⟩
  · simp [hd]
  · simp only [hd, List.head?_cons, Option.some.injEq, List.isEmpty_cons,
      Bool.not_false, Bool.true_and, Bool.or_eq_true, List.all_eq_true,
      decide_eq_true_eq, ne_eq, reduceCtorEq, not_false_eq_true, true_and,
      exists_eq_left']
    tauto

/-! ### Claim C9 — round-trip through a permissive YAML loader -/

/-- C9 (amended, script emitter): every value of the representative corpus
`rtCorpus` — none of whose strings is parseable JSON, so the always-failing
`JSON.parse` oracle agrees with the real one on every string encountered —
renders to YAML that the permissive loader parses back to a structurally
equal value. -/
theorem roundTrip_corpus :
    ∀ v ∈ rtCorpus, parseYamlDoc (ScriptConv.valueToYaml failOracle v 0) = some v := by
  intro v hv
  fin_cases hv <;> rfl

/-- Witness for `roundTrip_corpus` at the corpus element `null`. -/
theorem roundTrip_corpus_w :
    Json.null ∈ rtCorpus ∧
    parseYamlDoc (ScriptConv.valueToYaml failOracle Json.null 0) = some Json.null :=
  ⟨List.mem_cons_self _ _, roundTrip_corpus Json.null (List.mem_cons_self _ _)⟩

/-- Counterexample to C9 as stated: the extension's emitter renders the
corpus string `"key: value"` as a clip-chomped block literal (`|` with no
indicator), which a YAML loader reads back with a trailing newline the
original does not have. -/
theorem roundTrip_ext_fails :
    parseYamlDoc (YamlConv.valueToYaml failOracle (Json.str "key: value") 0)
      = some (Json.str "key: value\n") ∧
    ("key: value\n" : String) ≠ "key: value" :=
  ⟨rfl, by decide⟩
